import Mathlib

/-!
Shallow embedding of the voila key-value store (src/db.go) and proofs about it.

Modelling conventions:
* Go byte slices and strings are `List Nat` (one `Nat` per byte; the engine
  never reinterprets key/value payload bytes numerically, so no `< 256` bound
  is needed on them).
* The backing `os.File` is modelled by `Handle`: `noFile` is a nil `*os.File`
  (engine never opened), `openFile content` is an open handle on a regular
  file whose bytes are `content`, and `closedFile` is a non-nil handle whose
  underlying file has been closed (the state `Close` leaves behind, since
  `Close` does not reset `db.f` to nil).  Positioned I/O on `closedFile`
  always fails, mirroring `os.ErrClosed`.
* `File.ReadAt buf off` on a regular file fills `buf` fully and returns a nil
  error iff `off + len(buf) <= len(file)`; a zero-length read always succeeds.
  This is `readAt`.
* `File.WriteAt` at offset `off` overwrites/extends the file (zero-filling a
  gap if `off` is past the end, which never happens in reachable states);
  partial writes are modelled by the `written` argument of `Insert`: the OS
  durably wrote `min written len(buffer)` bytes and the call returned a nil
  error iff the buffer was written in full.
* The `for {}` replay loop of `loadFromStorage` is given fuel
  `len(file) + 1`: every iteration either returns or consumes at least 16
  bytes of the file, so the loop body can run at most `len(file)/16 + 1`
  times and this fuel is never exhausted.
* Errors are an inductive enum matching the `fmt.Errorf` sites of db.go.
-/

namespace Voila

/-- Little-endian 64-bit encoding, as binary.LittleEndian.PutUint64:
byte i is `(v >> 8*i) % 256`. -/
def putUint64 (v : Nat) : List Nat :=
  [v % 256, v / 256 % 256, v / 65536 % 256, v / 16777216 % 256,
   v / 4294967296 % 256, v / 1099511627776 % 256,
   v / 281474976710656 % 256, v / 72057594037927936 % 256]

/-- Little-endian decoding, as binary.LittleEndian.Uint64 on an 8-byte buffer. -/
def leUint64 (b : List Nat) : Nat :=
  b.foldr (fun x acc => x + 256 * acc) 0

/-- Page mirrors db.go's Page struct: the in-memory index entry
(key size, value size, record offset, record size). -/
structure Page where
  keySize : Nat
  valueSize : Nat
  offset : Nat
  size : Nat
deriving Repr, DecidableEq

/-- A Go map from string keys to Pages, modelled as an association list with
insert-or-replace semantics; states built by the engine never hold a key twice. -/
abbrev PageMap := List (List Nat × Page)

/-- Lookup in the association list (Go map read `db.pages[key]`). -/
def mapLookup (m : PageMap) (k : List Nat) : Option Page :=
  match m with
  | [] => none
  | (k', p) :: rest => if k' = k then some p else mapLookup rest k

/-- Insert-or-replace in the association list (Go map write `db.pages[key] = page`). -/
def mapInsert (m : PageMap) (k : List Nat) (p : Page) : PageMap :=
  match m with
  | [] => [(k, p)]
  | (k', p') :: rest => if k' = k then (k, p) :: rest else (k', p') :: mapInsert rest k p

/-- The key list of the map, in representation order. -/
def mapKeys (m : PageMap) : List (List Nat) :=
  m.map (fun e => e.1)

/-- State of the db.f field: nil pointer, open file with given bytes, or a
non-nil handle whose file has already been closed. -/
inductive Handle
  | noFile
  | openFile (content : List Nat)
  | closedFile
deriving Repr, DecidableEq

/-- DB mirrors db.go's DB struct. -/
structure DB where
  pages : PageMap
  f : Handle
  lastOffset : Nat
deriving Repr, DecidableEq

/-- One constructor per fmt.Errorf site in db.go, plus the error Go's
os.File.Close returns on a second Close (os.ErrClosed). -/
inductive DBError
  | notOpen
  | writeFailed
  | keyNotFound
  | seekFailed
  | readFailed
  | fileAlreadyClosed
deriving Repr, DecidableEq

deriving instance DecidableEq for Except

/-- New() creates a database instance with an empty pages map. -/
def New : DB :=
  { pages := [], f := Handle.noFile, lastOffset := 0 }

/-- os.File.ReadAt of len bytes at offset off on a regular file: succeeds and
fills the buffer fully iff the range lies inside the file; a zero-length read
always succeeds. -/
def readAt (file : List Nat) (off len : Nat) : Option (List Nat) :=
  if len = 0 ∨ off + len ≤ file.length then some ((file.drop off).take len) else none

/-- os.File.WriteAt of data at offset off: overwrite in place, zero-fill any
gap between end of file and off, extend as needed. -/
def writeAt (file : List Nat) (off : Nat) (data : List Nat) : List Nat :=
  (file.take off ++ List.replicate (off - file.length) 0) ++ data ++ file.drop (off + data.length)

/-- One iteration of the loadFromStorage loop body: the four ReadAt calls
(key-size field, value-size field, key bytes, value bytes), each returning
early on failure, then the Page built from the decoded sizes.  Returns the
decoded key, the Page registered for it, and the offset after the record. -/
def decodeRecord (file : List Nat) (offset : Nat) : Option (List Nat × Page × Nat) :=
  Option.bind (readAt file offset 8) (fun keySizeBuf =>
    Option.bind (readAt file (offset + 8) 8) (fun valueSizeBuf =>
      let keySize := leUint64 keySizeBuf
      let valueSize := leUint64 valueSizeBuf
      Option.bind (readAt file (offset + 8 + 8) keySize) (fun keyBuf =>
        Option.bind (readAt file (offset + 8 + 8 + keySize) valueSize) (fun _valueBuf =>
          let next := offset + 8 + 8 + keySize + valueSize
          let size := keySize + valueSize + 8 + 8
          some (keyBuf, { keySize := keySize, valueSize := valueSize,
                          offset := next - size, size := size }, next)))))

/-- The for-loop of loadFromStorage: decode records in ascending offset order,
registering each in the pages map and setting lastOffset to the end of each
fully parsed record; stop (returning early) at the first failing read.
The fuel argument only bounds the iteration count; it is never exhausted when
it exceeds len(file) / 16. -/
def loadLoop : Nat → List Nat → PageMap → Nat → Nat → PageMap × Nat
  | 0, _, pages, lastOffset, _ => (pages, lastOffset)
  | fuel + 1, file, pages, lastOffset, offset =>
    match decodeRecord file offset with
    | none => (pages, lastOffset)
    | some (key, page, next) => loadLoop fuel file (mapInsert pages key page) next next

/-- loadFromStorage scans the whole file from offset 0. -/
def loadFromStorage (file : List Nat) (pages : PageMap) (lastOffset : Nat) : PageMap × Nat :=
  loadLoop (file.length + 1) file pages lastOffset 0

/-- Open: acquire the file handle (content given; os.OpenFile failures are
environment failures outside the model) and replay it with loadFromStorage.
Open itself surfaces no error from replay. -/
def Open (db : DB) (content : List Nat) : DB :=
  let r := loadFromStorage content db.pages db.lastOffset
  { pages := r.1, f := Handle.openFile content, lastOffset := r.2 }

/-- Close: if db.f is non-nil, call db.f.Close() and return its result; a
second Close on the same handle hits os.ErrClosed.  db.f is not reset to nil. -/
def Close (db : DB) : DB × Except DBError Unit :=
  match db.f with
  | Handle.noFile => (db, Except.ok ())
  | Handle.openFile _ => ({ db with f := Handle.closedFile }, Except.ok ())
  | Handle.closedFile => (db, Except.error DBError.fileAlreadyClosed)

/-- The pageBuffer built by Insert: key-size field, value-size field, key
bytes, value bytes, appended in that order to an empty buffer. -/
def encodePage (key value : List Nat) : List Nat :=
  (([] ++ putUint64 key.length ++ putUint64 value.length) ++ key) ++ value

/-- Insert: nil-handle check, encode the record, positioned write at
lastOffset, then (only on full write success) register the Page and advance
lastOffset.  The written argument is how many bytes the OS durably wrote;
WriteAt returns a nil error iff the buffer went out in full.  A WriteAt on a
closed (non-nil) handle fails having written nothing. -/
def Insert (db : DB) (key value : List Nat) (written : Nat) : DB × Except DBError Unit :=
  match db.f with
  | Handle.noFile => (db, Except.error DBError.notOpen)
  | Handle.closedFile => (db, Except.error DBError.writeFailed)
  | Handle.openFile file =>
    let pageBuffer := encodePage key value
    if pageBuffer.length ≤ written then
      let page : Page := { offset := db.lastOffset,
                           size := key.length + value.length + 16,
                           valueSize := value.length,
                           keySize := key.length }
      ({ pages := mapInsert db.pages key page,
         f := Handle.openFile (writeAt file db.lastOffset pageBuffer),
         lastOffset := db.lastOffset + pageBuffer.length },
       Except.ok ())
    else
      ({ db with f := Handle.openFile (writeAt file db.lastOffset (pageBuffer.take written)) },
       Except.error DBError.writeFailed)

/-- Get: nil-handle check, then index lookup, then Seek to
page.offset + 8 + 8 + page.keySize, then binary.Read of exactly
page.valueSize bytes (io.ReadFull semantics: succeeds iff the buffer is
zero-length or lies inside the file).  The lookup precedes the Seek, so on a
closed (non-nil) handle a key absent from the index still fails with the
key-not-found error; only a present key reaches Seek, which fails on the
closed handle. -/
def Get (db : DB) (key : List Nat) : Except DBError (List Nat) :=
  match db.f with
  | Handle.noFile => Except.error DBError.notOpen
  | Handle.closedFile =>
    match mapLookup db.pages key with
    | none => Except.error DBError.keyNotFound
    | some _ => Except.error DBError.seekFailed
  | Handle.openFile file =>
    match mapLookup db.pages key with
    | none => Except.error DBError.keyNotFound
    | some page =>
      let valueOffset := page.offset + 8 + 8 + page.keySize
      if page.valueSize = 0 ∨ valueOffset + page.valueSize ≤ file.length then
        Except.ok ((file.drop valueOffset).take page.valueSize)
      else
        Except.error DBError.readFailed

/-- Keys returns all keys in the pages map. -/
def Keys (db : DB) : List (List Nat) :=
  mapKeys db.pages

/-- Exists is a pure membership check on the pages map. -/
def ExistsKey (db : DB) (key : List Nat) : Bool :=
  (mapLookup db.pages key).isSome

/-- Run a list of Inserts, each with a fully-successful positioned write. -/
def runInserts : DB → List (List Nat × List Nat) → DB
  | db, [] => db
  | db, (k, v) :: rest => runInserts (Insert db k v (encodePage k v).length).1 rest

/-- Concatenation of the records a list of inserts writes to a fresh file. -/
def encodeAll : List (List Nat × List Nat) → List Nat
  | [] => []
  | (k, v) :: rest => encodePage k v ++ encodeAll rest

/-- The pages map obtained by registering, in order, one index entry per
insert, starting at the given offset. -/
def replayFold (pages : PageMap) (off : Nat) : List (List Nat × List Nat) → PageMap
  | [] => pages
  | (k, v) :: rest =>
    replayFold
      (mapInsert pages k
        { keySize := k.length, valueSize := v.length, offset := off,
          size := k.length + v.length + 16 })
      (off + (16 + k.length + v.length)) rest

/-- An index entry is faithful to the file: decoding the record at its
recorded offset yields exactly this key and this Page, ending at
offset + size. -/
def entryOK (file : List Nat) (e : List Nat × Page) : Prop :=
  decodeRecord file e.2.offset = some (e.1, e.2, e.2.offset + e.2.size)

/-- States reachable by Open on an arbitrary file followed by successful
Inserts (Get, Keys and Exists do not mutate the state).  Key and value
lengths carry the bound imposed by Go's int (len returns a non-negative
int, which is below 2^64). -/
inductive Reachable : DB → Prop
  | open_reach (content : List Nat) : Reachable (Open New content)
  | insert_reach (db : DB) (k v : List Nat) (w : Nat)
      (hk : k.length < 2 ^ 64) (hv : v.length < 2 ^ 64)
      (hdb : Reachable db) (hok : (Insert db k v w).2 = Except.ok ()) :
      Reachable (Insert db k v w).1

/-- Engine invariant on open states: the write cursor lies inside the file
and every index entry decodes faithfully from a region that ends at or
before the write cursor. -/
def Inv (db : DB) : Prop :=
  ∀ file, db.f = Handle.openFile file →
    db.lastOffset ≤ file.length ∧
    ∀ e ∈ db.pages, entryOK file e ∧ e.2.offset + e.2.size ≤ db.lastOffset

theorem length_putUint64 (v : Nat) : (putUint64 v).length = 8 := rfl

theorem leUint64_putUint64 {v : Nat} (h : v < 2 ^ 64) : leUint64 (putUint64 v) = v := by
  simp only [putUint64, leUint64, List.foldr_cons, List.foldr_nil]
  omega

theorem encodePage_eq (key value : List Nat) :
    encodePage key value = putUint64 key.length ++ putUint64 value.length ++ key ++ value := by
  simp [encodePage]

theorem length_encodePage (key value : List Nat) :
    (encodePage key value).length = 16 + key.length + value.length := by
  simp [encodePage, length_putUint64]
  omega

theorem length_encodeAll_ge (ops : List (List Nat × List Nat)) :
    ops.length ≤ (encodeAll ops).length := by
  induction ops with
  | nil => simp [encodeAll]
  | cons op rest ih =>
    obtain ⟨k, v⟩ := op
    simp only [encodeAll, List.length_append, List.length_cons, length_encodePage]
    omega

theorem writeAt_eq_of_le (file data : List Nat) (off : Nat) (h : off ≤ file.length) :
    writeAt file off data = file.take off ++ data ++ file.drop (off + data.length) := by
  unfold writeAt
  rw [Nat.sub_eq_zero_of_le h]
  simp

theorem writeAt_append (file data : List Nat) :
    writeAt file file.length data = file ++ data := by
  rw [writeAt_eq_of_le file data file.length le_rfl]
  simp [List.drop_eq_nil_of_le]

theorem writeAt_prefix_length (file : List Nat) (off : Nat) :
    (file.take off ++ List.replicate (off - file.length) 0).length = off := by
  simp [List.length_take]
  omega

theorem writeAt_drop (file data : List Nat) (off j : Nat) (h : j ≤ data.length) :
    (writeAt file off data).drop (off + j) = data.drop j ++ file.drop (off + data.length) := by
  unfold writeAt
  rw [List.append_assoc, ← List.drop_drop, List.drop_left' (writeAt_prefix_length file off),
    List.drop_append_of_le_length h]

theorem writeAt_drop_self (file data : List Nat) (off : Nat) :
    (writeAt file off data).drop off = data ++ file.drop (off + data.length) := by
  have h := writeAt_drop file data off 0 (Nat.zero_le _)
  simpa using h

theorem length_writeAt (file data : List Nat) (off : Nat) :
    (writeAt file off data).length = max (off + data.length) file.length := by
  unfold writeAt
  simp [List.length_take]
  omega

theorem le_length_writeAt (file data : List Nat) (off : Nat) :
    off + data.length ≤ (writeAt file off data).length := by
  rw [length_writeAt]
  omega

theorem writeAt_take (file data : List Nat) (off : Nat) (h : off ≤ file.length) :
    (writeAt file off data).take off = file.take off := by
  rw [writeAt_eq_of_le file data off h, List.append_assoc,
    List.take_append_of_le_length (by simp [List.length_take]; omega), List.take_take]
  simp

theorem readAt_some (file : List Nat) (off len : Nat) (h : len = 0 ∨ off + len ≤ file.length) :
    readAt file off len = some ((file.drop off).take len) := by
  unfold readAt
  rw [if_pos h]

theorem readAt_some_inv {file b : List Nat} {off len : Nat} (h : readAt file off len = some b) :
    (len = 0 ∨ off + len ≤ file.length) ∧ b = (file.drop off).take len := by
  unfold readAt at h
  split at h
  · exact ⟨by assumption, by cases h; rfl⟩
  · cases h

theorem readAt_some_length {file b : List Nat} {off len : Nat} (h : readAt file off len = some b) :
    b.length = len := by
  obtain ⟨hc, rfl⟩ := readAt_some_inv h
  simp [List.length_take, List.length_drop]
  omega

theorem readAt_drop {file s : List Nat} {off : Nat} (hs : file.drop off = s) (j len : Nat)
    (hl : j + len ≤ s.length) : readAt file (off + j) len = some ((s.drop j).take len) := by
  have hslen : s.length = file.length - off := by rw [← hs]; simp [List.length_drop]
  have hcond : len = 0 ∨ off + j + len ≤ file.length := by omega
  rw [readAt_some file (off + j) len hcond, ← List.drop_drop, hs]

theorem take_drop_congr {f₁ f₂ : List Nat} {p off len : Nat} (hpre : f₁.take p = f₂.take p)
    (h : off + len ≤ p) : (f₁.drop off).take len = (f₂.drop off).take len := by
  have key : ∀ f : List Nat, (f.drop off).take len = (f.take (off + len)).drop off := by
    intro f
    rw [List.drop_take]
    congr 1
    omega
  have htp : f₁.take (off + len) = f₂.take (off + len) := by
    have hc := congrArg (List.take (off + len)) hpre
    rwa [List.take_take, List.take_take, Nat.min_eq_left h] at hc
  rw [key f₁, key f₂, htp]

theorem readAt_congr {f₁ f₂ : List Nat} {p : Nat} (hpre : f₁.take p = f₂.take p)
    (hp₁ : p ≤ f₁.length) (hp₂ : p ≤ f₂.length) (off len : Nat) (h : off + len ≤ p) :
    readAt f₁ off len = readAt f₂ off len := by
  rw [readAt_some f₁ off len (by omega), readAt_some f₂ off len (by omega),
    take_drop_congr hpre h]

theorem mapLookup_mapInsert_self (m : PageMap) (k : List Nat) (p : Page) :
    mapLookup (mapInsert m k p) k = some p := by
  induction m with
  | nil => simp [mapInsert, mapLookup]
  | cons e rest ih =>
    obtain ⟨k', p'⟩ := e
    by_cases h : k' = k
    · simp [mapInsert, h, mapLookup]
    · simp [mapInsert, h, mapLookup, ih]

theorem mapLookup_mapInsert_ne (m : PageMap) {k k' : List Nat} (p : Page) (h : k' ≠ k) :
    mapLookup (mapInsert m k p) k' = mapLookup m k' := by
  have hne : ¬ k = k' := fun he => h he.symm
  induction m with
  | nil => simp [mapInsert, mapLookup, hne]
  | cons e rest ih =>
    obtain ⟨k₀, p₀⟩ := e
    by_cases h₀ : k₀ = k
    · subst h₀
      simp [mapInsert, mapLookup, hne]
    · simp [mapInsert, h₀, mapLookup, ih]

theorem mem_mapInsert {m : PageMap} {k : List Nat} {p : Page} {e : List Nat × Page}
    (h : e ∈ mapInsert m k p) : e = (k, p) ∨ e ∈ m := by
  induction m with
  | nil => simpa [mapInsert] using h
  | cons e₀ rest ih =>
    obtain ⟨k₀, p₀⟩ := e₀
    by_cases h₀ : k₀ = k
    · simp only [mapInsert, if_pos h₀, List.mem_cons] at h
      rcases h with h | h
      · exact Or.inl h
      · exact Or.inr (List.mem_cons_of_mem _ h)
    · simp only [mapInsert, if_neg h₀, List.mem_cons] at h
      rcases h with h | h
      · exact Or.inr (h ▸ List.mem_cons_self _ _)
      · rcases ih h with h' | h'
        · exact Or.inl h'
        · exact Or.inr (List.mem_cons_of_mem _ h')

theorem mapKeys_cons (e : List Nat × Page) (m : PageMap) :
    mapKeys (e :: m) = e.1 :: mapKeys m := rfl

theorem mapKeys_mapInsert (m : PageMap) (k : List Nat) (p : Page) :
    mapKeys (mapInsert m k p)
      = if k ∈ mapKeys m then mapKeys m else mapKeys m ++ [k] := by
  induction m with
  | nil => simp [mapInsert, mapKeys]
  | cons e rest ih =>
    obtain ⟨k₀, p₀⟩ := e
    by_cases h₀ : k₀ = k
    · subst h₀
      simp [mapInsert, mapKeys_cons]
    · have hne : ¬ k = k₀ := fun he => h₀ he.symm
      rw [show mapInsert ((k₀, p₀) :: rest) k p = (k₀, p₀) :: mapInsert rest k p from by
        simp [mapInsert, h₀]]
      rw [mapKeys_cons, mapKeys_cons, ih]
      by_cases hmem : k ∈ mapKeys rest
      · rw [if_pos hmem, if_pos (by simp [hmem])]
      · rw [if_neg hmem, if_neg (by simp [hmem, hne])]
        simp

theorem nodup_mapKeys_mapInsert {m : PageMap} (k : List Nat) (p : Page)
    (h : (mapKeys m).Nodup) : (mapKeys (mapInsert m k p)).Nodup := by
  rw [mapKeys_mapInsert]
  split
  · exact h
  · next hmem => simp [List.nodup_append, h, hmem]

theorem mem_mapKeys_mapInsert (m : PageMap) (k : List Nat) (p : Page) :
    k ∈ mapKeys (mapInsert m k p) := by
  rw [mapKeys_mapInsert]
  split
  · assumption
  · simp

theorem count_eq_one_of_nodup_mem {l : List (List Nat)} {a : List Nat}
    (hnd : l.Nodup) (hmem : a ∈ l) : l.count a = 1 := by
  induction l with
  | nil => cases hmem
  | cons b rest ih =>
    rw [List.nodup_cons] at hnd
    rw [List.count_cons]
    rcases List.mem_cons.mp hmem with rfl | hmem'
    · rw [if_pos (by simp), List.count_eq_zero_of_not_mem hnd.1]
    · rw [ih hnd.2 hmem', if_neg (by simp; rintro rfl; exact hnd.1 hmem')]

theorem count_mapKeys_mapInsert (m : PageMap) (k : List Nat) (p : Page)
    (h : (mapKeys m).Nodup) : (mapKeys (mapInsert m k p)).count k = 1 :=
  count_eq_one_of_nodup_mem (nodup_mapKeys_mapInsert k p h) (mem_mapKeys_mapInsert m k p)

theorem decodeRecord_none_of_lt {file : List Nat} {offset : Nat}
    (h : file.length < offset + 8) : decodeRecord file offset = none := by
  have h8 : readAt file offset 8 = none := by
    unfold readAt
    rw [if_neg]
    rintro (h0 | hle) <;> omega
  simp [decodeRecord, h8]

theorem decodeRecord_some_inv {file : List Nat} {offset : Nat} {k : List Nat} {p : Page}
    {next : Nat} (h : decodeRecord file offset = some (k, p, next)) :
    p.offset = offset ∧ next = offset + p.size ∧ p.size = p.keySize + p.valueSize + 8 + 8 ∧
    k.length = p.keySize ∧ offset + 16 ≤ next ∧ next ≤ file.length := by
  simp only [decodeRecord, Option.bind_eq_some, Option.some.injEq, Prod.mk.injEq] at h
  obtain ⟨ksb, hksb, vsb, hvsb, kb, hkb, vb, hvb, hk, hp, hnext⟩ := h
  subst hk
  subst hnext
  subst hp
  dsimp only
  have h2 := (readAt_some_inv hvsb).1
  have h3 := (readAt_some_inv hkb).1
  have h4 := (readAt_some_inv hvb).1
  have hlen := readAt_some_length hkb
  have hnextle : offset + 8 + 8 + leUint64 ksb + leUint64 vsb ≤ file.length := by
    rcases h2 with h2 | h2
    · omega
    rcases h3 with h3 | h3 <;> rcases h4 with h4 | h4 <;> omega
  exact ⟨by omega, by omega, rfl, hlen, by omega, hnextle⟩

theorem decodeRecord_encodePage {file : List Nat} {off : Nat} {k v rest : List Nat}
    (hdrop : file.drop off = encodePage k v ++ rest)
    (hk : k.length < 2 ^ 64) (hv : v.length < 2 ^ 64) :
    decodeRecord file off
      = some (k, { keySize := k.length, valueSize := v.length, offset := off,
                   size := k.length + v.length + 8 + 8 },
              off + 8 + 8 + k.length + v.length) := by
  have hd0 : file.drop off = putUint64 k.length ++ (putUint64 v.length ++ (k ++ (v ++ rest))) := by
    rw [hdrop, encodePage_eq]
    simp [List.append_assoc]
  have hfl : file.length - off = 8 + (8 + (k.length + (v.length + rest.length))) := by
    rw [← List.length_drop, hd0]
    simp [length_putUint64]
  have hd8 : file.drop (off + 8) = putUint64 v.length ++ (k ++ (v ++ rest)) := by
    rw [← List.drop_drop, hd0, List.drop_left' (length_putUint64 _)]
  have hd16 : file.drop (off + 8 + 8) = k ++ (v ++ rest) := by
    rw [← List.drop_drop, hd8, List.drop_left' (length_putUint64 _)]
  have hdk : file.drop (off + 8 + 8 + k.length) = v ++ rest := by
    rw [← List.drop_drop, hd16, List.drop_left]
  have r1 : readAt file off 8 = some (putUint64 k.length) := by
    rw [readAt_some file off 8 (by omega), hd0, List.take_left' (length_putUint64 _)]
  have r2 : readAt file (off + 8) 8 = some (putUint64 v.length) := by
    rw [readAt_some file (off + 8) 8 (by omega), hd8, List.take_left' (length_putUint64 _)]
  have r3 : readAt file (off + 8 + 8) k.length = some k := by
    rw [readAt_some file (off + 8 + 8) k.length (by omega), hd16, List.take_left]
  have r4 : readAt file (off + 8 + 8 + k.length) v.length = some v := by
    rw [readAt_some file (off + 8 + 8 + k.length) v.length (by omega), hdk, List.take_left]
  have hoff : off + 8 + 8 + k.length + v.length - (k.length + v.length + 8 + 8) = off := by
    omega
  simp only [decodeRecord, r1, r2, Option.some_bind, leUint64_putUint64 hk,
    leUint64_putUint64 hv, r3, r4, hoff]

theorem decodeRecord_congr {f₁ f₂ : List Nat} {P : Nat} (hpre : f₁.take P = f₂.take P)
    (hp₁ : P ≤ f₁.length) (hp₂ : P ≤ f₂.length) {offset : Nat} {k : List Nat} {p : Page}
    {next : Nat} (h : decodeRecord f₁ offset = some (k, p, next)) (hnext : next ≤ P) :
    decodeRecord f₂ offset = some (k, p, next) := by
  simp only [decodeRecord, Option.bind_eq_some, Option.some.injEq, Prod.mk.injEq] at h
  obtain ⟨ksb, hksb, vsb, hvsb, kb, hkb, vb, hvb, hk, hp, hn⟩ := h
  have hb1 : offset + 8 ≤ P := by omega
  have hb2 : offset + 8 + 8 ≤ P := by omega
  have hb3 : offset + 8 + 8 + leUint64 ksb ≤ P := by omega
  have hb4 : offset + 8 + 8 + leUint64 ksb + leUint64 vsb ≤ P := by omega
  have r1 : readAt f₂ offset 8 = some ksb := by
    rw [← readAt_congr hpre hp₁ hp₂ offset 8 hb1]
    exact hksb
  have r2 : readAt f₂ (offset + 8) 8 = some vsb := by
    rw [← readAt_congr hpre hp₁ hp₂ (offset + 8) 8 hb2]
    exact hvsb
  have r3 : readAt f₂ (offset + 8 + 8) (leUint64 ksb) = some kb := by
    rw [← readAt_congr hpre hp₁ hp₂ (offset + 8 + 8) (leUint64 ksb) hb3]
    exact hkb
  have r4 : readAt f₂ (offset + 8 + 8 + leUint64 ksb) (leUint64 vsb) = some vb := by
    rw [← readAt_congr hpre hp₁ hp₂ (offset + 8 + 8 + leUint64 ksb) (leUint64 vsb) hb4]
    exact hvb
  simp only [decodeRecord, r1, r2, r3, r4, Option.some_bind]
  rw [← hk, ← hp, ← hn]

theorem loadLoop_succ_none {fuel : Nat} {file : List Nat} {pages : PageMap} {lo offset : Nat}
    (h : decodeRecord file offset = none) :
    loadLoop (fuel + 1) file pages lo offset = (pages, lo) := by
  simp [loadLoop, h]

theorem loadLoop_succ_some {fuel : Nat} {file : List Nat} {pages : PageMap} {lo offset : Nat}
    {k : List Nat} {p : Page} {next : Nat} (h : decodeRecord file offset = some (k, p, next)) :
    loadLoop (fuel + 1) file pages lo offset
      = loadLoop fuel file (mapInsert pages k p) next next := by
  simp [loadLoop, h]

theorem loadLoop_encodeAll (ops : List (List Nat × List Nat)) :
    ∀ (base tail : List Nat) (pages : PageMap) (fuel : Nat),
    (∀ op ∈ ops, op.1.length < 2 ^ 64 ∧ op.2.length < 2 ^ 64) →
    decodeRecord (base ++ encodeAll ops ++ tail) (base.length + (encodeAll ops).length) = none →
    ops.length < fuel →
    loadLoop fuel (base ++ encodeAll ops ++ tail) pages base.length base.length
      = (replayFold pages base.length ops, base.length + (encodeAll ops).length) := by
  induction ops with
  | nil =>
    intro base tail pages fuel hlen hnone hfuel
    cases fuel with
    | zero => omega
    | succ n =>
      simp only [encodeAll, List.append_nil, List.length_nil, Nat.add_zero] at hnone ⊢
      rw [loadLoop_succ_none hnone]
      simp [replayFold]
  | cons op rest ih =>
    obtain ⟨k, v⟩ := op
    intro base tail pages fuel hlen hnone hfuel
    cases fuel with
    | zero => simp at hfuel
    | succ n =>
      have hkv := hlen (k, v) (List.mem_cons_self _ _)
      have hrest : ∀ op ∈ rest, op.1.length < 2 ^ 64 ∧ op.2.length < 2 ^ 64 :=
        fun op hop => hlen op (List.mem_cons_of_mem _ hop)
      have hfile : base ++ encodeAll ((k, v) :: rest) ++ tail
          = (base ++ encodePage k v) ++ encodeAll rest ++ tail := by
        simp [encodeAll, List.append_assoc]
      have hdrop : (base ++ encodeAll ((k, v) :: rest) ++ tail).drop base.length
          = encodePage k v ++ (encodeAll rest ++ tail) := by
        simp only [encodeAll]
        rw [List.append_assoc, List.drop_left, List.append_assoc]
      have hdec := decodeRecord_encodePage hdrop hkv.1 hkv.2
      rw [loadLoop_succ_some hdec]
      have hblen : (base ++ encodePage k v).length = base.length + (16 + k.length + v.length) := by
        rw [List.length_append, length_encodePage]
      have hnext : base.length + 8 + 8 + k.length + v.length
          = (base ++ encodePage k v).length := by
        rw [hblen]; omega
      have hoffeq : base.length + (encodeAll ((k, v) :: rest)).length
          = (base ++ encodePage k v).length + (encodeAll rest).length := by
        simp only [encodeAll, List.length_append, length_encodePage, hblen]
        omega
      rw [hfile, hoffeq] at hnone
      have hfuel2 : rest.length < n := by
        simp only [List.length_cons] at hfuel
        omega
      have hpg : ({ keySize := k.length, valueSize := v.length, offset := base.length,
                    size := k.length + v.length + 8 + 8 } : Page)
          = { keySize := k.length, valueSize := v.length, offset := base.length,
              size := k.length + v.length + 16 } := by
        simp only [Page.mk.injEq]
      rw [hfile, hnext, hpg]
      rw [ih (base ++ encodePage k v) tail _ n hrest hnone hfuel2]
      simp only [replayFold, hoffeq, hblen]

theorem Insert_ok {db : DB} {file : List Nat} (k v : List Nat) {w : Nat}
    (hf : db.f = Handle.openFile file) (hw : (encodePage k v).length ≤ w) :
    Insert db k v w
      = ({ pages := mapInsert db.pages k
             { offset := db.lastOffset, size := k.length + v.length + 16,
               valueSize := v.length, keySize := k.length },
           f := Handle.openFile (writeAt file db.lastOffset (encodePage k v)),
           lastOffset := db.lastOffset + (encodePage k v).length }, Except.ok ()) := by
  simp [Insert, hf, hw]

theorem Insert_fail {db : DB} {file : List Nat} (k v : List Nat) {w : Nat}
    (hf : db.f = Handle.openFile file) (hw : ¬ (encodePage k v).length ≤ w) :
    Insert db k v w
      = ({ db with
             f := Handle.openFile (writeAt file db.lastOffset ((encodePage k v).take w)) },
         Except.error DBError.writeFailed) := by
  simp [Insert, hf, hw]

theorem Insert_ok_inv {db : DB} {k v : List Nat} {w : Nat}
    (hok : (Insert db k v w).2 = Except.ok ()) :
    ∃ file, db.f = Handle.openFile file ∧ (encodePage k v).length ≤ w := by
  cases hdb : db.f with
  | noFile => rw [Insert, hdb] at hok; simp at hok
  | closedFile => rw [Insert, hdb] at hok; simp at hok
  | openFile file =>
    by_cases hw : (encodePage k v).length ≤ w
    · exact ⟨file, rfl, hw⟩
    · rw [Insert_fail k v hdb hw] at hok
      simp at hok

theorem runInserts_state (ops : List (List Nat × List Nat)) :
    ∀ (db : DB) (file : List Nat), db.f = Handle.openFile file →
    db.lastOffset = file.length →
    runInserts db ops
      = { pages := replayFold db.pages file.length ops,
          f := Handle.openFile (file ++ encodeAll ops),
          lastOffset := file.length + (encodeAll ops).length } := by
  induction ops with
  | nil =>
    intro db file hf hlast
    simp only [runInserts, replayFold, encodeAll, List.append_nil, List.length_nil,
      Nat.add_zero]
    cases db with
    | mk pages f lastOffset => simp_all
  | cons op rest ih =>
    obtain ⟨k, v⟩ := op
    intro db file hf hlast
    simp only [runInserts]
    rw [Insert_ok k v hf le_rfl, hlast, writeAt_append]
    have hl : file.length + (encodePage k v).length = (file ++ encodePage k v).length :=
      (List.length_append file (encodePage k v)).symm
    rw [ih { pages := mapInsert db.pages k
               { offset := file.length, size := k.length + v.length + 16,
                 valueSize := v.length, keySize := k.length },
             f := Handle.openFile (file ++ encodePage k v),
             lastOffset := file.length + (encodePage k v).length }
          (file ++ encodePage k v) rfl hl]
    have hblen : (file ++ encodePage k v).length = file.length + (16 + k.length + v.length) := by
      rw [List.length_append, length_encodePage]
    simp only [replayFold, encodeAll, hblen, DB.mk.injEq, true_and]
    refine ⟨?_, ?_⟩
    · rw [List.append_assoc]
    · simp only [List.length_append, length_encodePage]
      omega

theorem Open_encodeAll (ops : List (List Nat × List Nat)) (tail : List Nat)
    (hlen : ∀ op ∈ ops, op.1.length < 2 ^ 64 ∧ op.2.length < 2 ^ 64)
    (hnone : decodeRecord (encodeAll ops ++ tail) (encodeAll ops).length = none) :
    Open New (encodeAll ops ++ tail)
      = { pages := replayFold [] 0 ops,
          f := Handle.openFile (encodeAll ops ++ tail),
          lastOffset := (encodeAll ops).length } := by
  have hfuel : ops.length < (encodeAll ops ++ tail).length + 1 := by
    have := length_encodeAll_ge ops
    simp only [List.length_append]
    omega
  have key := loadLoop_encodeAll ops [] tail [] ((encodeAll ops ++ tail).length + 1) hlen
    (by simpa using hnone) (by simpa using hfuel)
  simp only [List.nil_append, List.length_nil, Nat.zero_add] at key
  simp only [Open, New, loadFromStorage]
  rw [key]

theorem Get_Insert_self {db : DB} {file : List Nat} (k v : List Nat) {w : Nat}
    (hf : db.f = Handle.openFile file) (hok : (Insert db k v w).2 = Except.ok ()) :
    Get (Insert db k v w).1 k = Except.ok v := by
  obtain ⟨file', hf', hw⟩ := Insert_ok_inv hok
  have hfe : file = file' := by
    have h := hf.symm.trans hf'
    simpa using h
  subst hfe
  rw [Insert_ok k v hf hw]
  simp only [Get, mapLookup_mapInsert_self]
  have hlen := length_encodePage k v
  have hcond : v.length = 0 ∨
      db.lastOffset + 8 + 8 + k.length + v.length
        ≤ (writeAt file db.lastOffset (encodePage k v)).length := by
    right
    have := le_length_writeAt file (encodePage k v) db.lastOffset
    omega
  rw [if_pos hcond]
  have hvo : db.lastOffset + 8 + 8 + k.length = db.lastOffset + (16 + k.length) := by omega
  rw [hvo, writeAt_drop file (encodePage k v) db.lastOffset (16 + k.length) (by omega)]
  have hdropenc : (encodePage k v).drop (16 + k.length) = v := by
    rw [encodePage_eq, List.drop_left' (by simp [length_putUint64]; omega)]
  rw [hdropenc, List.take_left]

theorem loadLoop_inv (fuel : Nat) :
    ∀ (file : List Nat) (pages : PageMap) (lo offset : Nat),
    (∀ e ∈ pages, entryOK file e ∧ e.2.offset + e.2.size ≤ lo) →
    lo ≤ file.length → lo ≤ offset →
    lo ≤ (loadLoop fuel file pages lo offset).2 ∧
    (loadLoop fuel file pages lo offset).2 ≤ file.length ∧
    ∀ e ∈ (loadLoop fuel file pages lo offset).1,
      entryOK file e ∧ e.2.offset + e.2.size ≤ (loadLoop fuel file pages lo offset).2 := by
  induction fuel with
  | zero =>
    intro file pages lo offset hpages hlo hlooff
    simp only [loadLoop]
    exact ⟨le_rfl, hlo, hpages⟩
  | succ n ih =>
    intro file pages lo offset hpages hlo hlooff
    cases hdec : decodeRecord file offset with
    | none =>
      rw [loadLoop_succ_none hdec]
      exact ⟨le_rfl, hlo, hpages⟩
    | some res =>
      obtain ⟨k, p, next⟩ := res
      rw [loadLoop_succ_some hdec]
      obtain ⟨ho, hn, hs, hkl, hb1, hb2⟩ := decodeRecord_some_inv hdec
      have hnew : entryOK file (k, p) ∧ (k, p).2.offset + (k, p).2.size ≤ next := by
        constructor
        · unfold entryOK
          dsimp only
          rw [ho, ← hn]
          exact hdec
        · dsimp only
          omega
      have hpages' : ∀ e ∈ mapInsert pages k p,
          entryOK file e ∧ e.2.offset + e.2.size ≤ next := by
        intro e he
        rcases mem_mapInsert he with rfl | he'
        · exact hnew
        · have h := hpages e he'
          exact ⟨h.1, by omega⟩
      have hrec := ih file (mapInsert pages k p) next next hpages' hb2 le_rfl
      exact ⟨by omega, hrec.2.1, hrec.2.2⟩

theorem Inv_Open_New (content : List Nat) : Inv (Open New content) := by
  have h := loadLoop_inv (content.length + 1) content [] 0 0 (by simp) (Nat.zero_le _)
    (Nat.zero_le _)
  intro file hfeq
  simp only [Open, New, loadFromStorage] at hfeq ⊢
  have hfe : content = file := by simpa using hfeq
  subst hfe
  exact ⟨h.2.1, h.2.2⟩

theorem Inv_Insert {db : DB} {k v : List Nat} {w : Nat}
    (hk : k.length < 2 ^ 64) (hv : v.length < 2 ^ 64)
    (hinv : Inv db) (hok : (Insert db k v w).2 = Except.ok ()) :
    Inv (Insert db k v w).1 := by
  obtain ⟨file, hf, hw⟩ := Insert_ok_inv hok
  obtain ⟨hlast, hent⟩ := hinv file hf
  rw [Insert_ok k v hf hw]
  intro file' hfeq
  dsimp only at hfeq ⊢
  have hfe : writeAt file db.lastOffset (encodePage k v) = file' := by simpa using hfeq
  subst hfe
  have hwlen := le_length_writeAt file (encodePage k v) db.lastOffset
  have helen := length_encodePage k v
  constructor
  · exact hwlen
  · intro e he
    rcases mem_mapInsert he with rfl | he'
    · constructor
      · unfold entryOK
        dsimp only
        have hdrop := writeAt_drop_self file (encodePage k v) db.lastOffset
        have hdec := decodeRecord_encodePage hdrop hk hv
        have hdec2 : decodeRecord (writeAt file db.lastOffset (encodePage k v)) db.lastOffset
            = some (k, { keySize := k.length, valueSize := v.length, offset := db.lastOffset,
                         size := k.length + v.length + 16 },
                    db.lastOffset + (k.length + v.length + 16)) := by
          rw [hdec]
          simp only [Option.some.injEq, Prod.mk.injEq, Page.mk.injEq, true_and]
          omega
        exact hdec2
      · dsimp only
        omega
    · have h := hent e he'
      constructor
      · exact decodeRecord_congr (writeAt_take file (encodePage k v) db.lastOffset hlast).symm
          hlast (by omega) h.1 h.2
      · omega

theorem reachable_inv {db : DB} (h : Reachable db) : Inv db := by
  induction h with
  | open_reach content => exact Inv_Open_New content
  | insert_reach db k v w hk hv hdb hok ih => exact Inv_Insert hk hv ih hok

theorem mapLookup_mem {m : PageMap} {k : List Nat} {p : Page} (h : mapLookup m k = some p) :
    (k, p) ∈ m := by
  induction m with
  | nil => simp [mapLookup] at h
  | cons e rest ih =>
    obtain ⟨k₀, p₀⟩ := e
    by_cases h₀ : k₀ = k
    · subst h₀
      have h' : p₀ = p := by simpa [mapLookup] using h
      subst h'
      exact List.mem_cons_self _ _
    · simp only [mapLookup, if_neg h₀] at h
      exact List.mem_cons_of_mem _ (ih h)

theorem Get_Insert_frame {db : DB} {k v kp : List Nat} {w : Nat}
    (hinv : Inv db) (hne : kp ≠ k) (hok : (Insert db k v w).2 = Except.ok ()) :
    Get (Insert db k v w).1 kp = Get db kp := by
  obtain ⟨file, hf, hw⟩ := Insert_ok_inv hok
  obtain ⟨hlast, hent⟩ := hinv file hf
  rw [Insert_ok k v hf hw]
  simp only [Get, hf]
  rw [mapLookup_mapInsert_ne db.pages _ hne]
  cases hlook : mapLookup db.pages kp with
  | none => rfl
  | some page =>
    dsimp only
    have hmem := hent (kp, page) (mapLookup_mem hlook)
    have hek := hmem.1
    unfold entryOK at hek
    dsimp only at hek
    have hsize : page.offset + page.size ≤ db.lastOffset := hmem.2
    obtain ⟨ho, hn, hs, hkl, hb1, hb2⟩ := decodeRecord_some_inv hek
    have hflen := length_writeAt file (encodePage k v) db.lastOffset
    have hcond2 : page.valueSize = 0 ∨
        page.offset + 8 + 8 + page.keySize + page.valueSize ≤ file.length :=
      Or.inr (by omega)
    have hcond1 : page.valueSize = 0 ∨
        page.offset + 8 + 8 + page.keySize + page.valueSize
          ≤ (writeAt file db.lastOffset (encodePage k v)).length :=
      Or.inr (by omega)
    rw [if_pos hcond1, if_pos hcond2]
    exact congrArg Except.ok
      (take_drop_congr (writeAt_take file (encodePage k v) db.lastOffset hlast) (by omega))

/-- C1: for every key k and byte sequence v (including the empty key and the
empty value), on an open engine, Insert(k, v) followed by Get(k) succeeds and
returns exactly the bytes v. -/
theorem insert_get_roundtrip (db : DB) (file k v : List Nat) (w : Nat)
    (hopen : db.f = Handle.openFile file) (hok : (Insert db k v w).2 = Except.ok ()) :
    Get (Insert db k v w).1 k = Except.ok v :=
  Get_Insert_self k v hopen hok

theorem insert_get_roundtrip_witness :
    (Open New []).f = Handle.openFile [] ∧
    (Insert (Open New []) [] [] 16).2 = Except.ok () ∧
    Get (Insert (Open New []) [] [] 16).1 [] = Except.ok [] :=
  ⟨by decide, by decide,
    insert_get_roundtrip (Open New []) [] [] [] 16 (by decide) (by decide)⟩

/-- C2: after any sequence of successful Inserts on a fresh file, closing the
engine succeeds, and reopening the same file bytes with a new engine (replay
from offset 0, in ascending offset order) rebuilds an index with the same key
set, on which Get returns the same value as before closing for every key. -/
theorem insert_close_reopen_roundtrip (ops : List (List Nat × List Nat))
    (hlen : ∀ op ∈ ops, op.1.length < 2 ^ 64 ∧ op.2.length < 2 ^ 64)
    (F : List Nat) (hF : (runInserts (Open New []) ops).f = Handle.openFile F) :
    (Close (runInserts (Open New []) ops)).2 = Except.ok () ∧
    Keys (Open New F) = Keys (runInserts (Open New []) ops) ∧
    ∀ k, Get (Open New F) k = Get (runInserts (Open New []) ops) k := by
  have hopen0 : (Open New []).f = Handle.openFile [] := by decide
  have hlast0 : (Open New []).lastOffset = ([] : List Nat).length := by decide
  have hpages0 : (Open New []).pages = [] := by decide
  have hrun := runInserts_state ops (Open New []) [] hopen0 hlast0
  rw [hpages0] at hrun
  simp only [List.nil_append, List.length_nil, Nat.zero_add] at hrun
  rw [hrun] at hF
  have hFe : encodeAll ops = F := by simpa using hF
  subst hFe
  have hopenF := Open_encodeAll ops [] hlen (by
    rw [List.append_nil]
    exact decodeRecord_none_of_lt (by omega))
  rw [List.append_nil] at hopenF
  rw [hrun, hopenF]
  exact ⟨rfl, rfl, fun k => rfl⟩

theorem insert_close_reopen_roundtrip_witness :
    (Close (runInserts (Open New []) [([1], [2]), ([1], [3])])).2 = Except.ok () ∧
    Keys (Open New (encodeAll [([1], [2]), ([1], [3])]))
      = Keys (runInserts (Open New []) [([1], [2]), ([1], [3])]) ∧
    Get (Open New (encodeAll [([1], [2]), ([1], [3])])) [1]
      = Get (runInserts (Open New []) [([1], [2]), ([1], [3])]) [1] := by
  have h := insert_close_reopen_roundtrip [([1], [2]), ([1], [3])] (by decide)
    (encodeAll [([1], [2]), ([1], [3])]) (by decide)
  exact ⟨h.1, h.2.1, h.2.2 [1]⟩

/-- C3: the byte sequence Insert writes for (k, v) is exactly the 8-byte
little-endian key length, then the 8-byte little-endian value length, then
the key bytes, then the value bytes, with no separators or padding, for a
total of 16 + len(k) + len(v) bytes, and it is written at the current
write-cursor offset (the bytes of the new file at that offset are the
record). -/
theorem insert_wire_format (db : DB) (file k v : List Nat) (w : Nat)
    (hopen : db.f = Handle.openFile file) (hok : (Insert db k v w).2 = Except.ok ()) :
    encodePage k v = putUint64 k.length ++ putUint64 v.length ++ k ++ v ∧
    (encodePage k v).length = 16 + k.length + v.length ∧
    (Insert db k v w).1.f
      = Handle.openFile (writeAt file db.lastOffset (encodePage k v)) ∧
    ((writeAt file db.lastOffset (encodePage k v)).drop db.lastOffset).take
        (16 + k.length + v.length)
      = putUint64 k.length ++ putUint64 v.length ++ k ++ v := by
  obtain ⟨file', hf', hw⟩ := Insert_ok_inv hok
  have hfe : file = file' := by simpa using hopen.symm.trans hf'
  subst hfe
  refine ⟨encodePage_eq k v, length_encodePage k v, ?_, ?_⟩
  · rw [Insert_ok k v hopen hw]
  · rw [writeAt_drop_self, List.take_left' (length_encodePage k v)]
    exact encodePage_eq k v

theorem insert_wire_format_witness :
    encodePage [7] [8, 9] = putUint64 1 ++ putUint64 2 ++ [7] ++ [8, 9] ∧
    (encodePage [7] [8, 9]).length = 16 + 1 + 2 ∧
    (Insert (Open New []) [7] [8, 9] 19).1.f
      = Handle.openFile (writeAt [] 0 (encodePage [7] [8, 9])) ∧
    ((writeAt [] 0 (encodePage [7] [8, 9])).drop 0).take (16 + 1 + 2)
      = putUint64 1 ++ putUint64 2 ++ [7] ++ [8, 9] := by
  have h := insert_wire_format (Open New []) [] [7] [8, 9] 19 (by decide) (by decide)
  exact ⟨h.1, h.2.1, h.2.2.1, h.2.2.2⟩

/-- C4: on an open engine whose index (a Go map) has no duplicate keys, after
inserting the same key twice with different values, Get returns the most
recently inserted value and Keys() lists that key exactly once. -/
theorem insert_shadowing (db : DB) (file k v₁ v₂ : List Nat) (w₁ w₂ : Nat)
    (hopen : db.f = Handle.openFile file) (hnodup : (mapKeys db.pages).Nodup)
    (hvne : v₁ ≠ v₂)
    (hok₁ : (Insert db k v₁ w₁).2 = Except.ok ())
    (hok₂ : (Insert (Insert db k v₁ w₁).1 k v₂ w₂).2 = Except.ok ()) :
    Get (Insert (Insert db k v₁ w₁).1 k v₂ w₂).1 k = Except.ok v₂ ∧
    (Keys (Insert (Insert db k v₁ w₁).1 k v₂ w₂).1).count k = 1 := by
  obtain ⟨file₁, hf₁, hw₂⟩ := Insert_ok_inv hok₂
  constructor
  · exact Get_Insert_self k v₂ hf₁ hok₂
  · obtain ⟨file₀, hf₀, hw₁⟩ := Insert_ok_inv hok₁
    rw [Insert_ok k v₂ hf₁ hw₂]
    dsimp only [Keys]
    apply count_mapKeys_mapInsert
    have hfe : file = file₀ := by simpa using hopen.symm.trans hf₀
    subst hfe
    rw [Insert_ok k v₁ hopen hw₁]
    exact nodup_mapKeys_mapInsert k _ hnodup

theorem insert_shadowing_witness :
    Get (Insert (Insert (Open New []) [5] [1] 18).1 [5] [2] 18).1 [5] = Except.ok [2] ∧
    (Keys (Insert (Insert (Open New []) [5] [1] 18).1 [5] [2] 18).1).count [5] = 1 :=
  insert_shadowing (Open New []) [] [5] [1] [2] 18 18 (by decide) (by decide)
    (by decide) (by decide) (by decide)

/-- C5: if the positioned write during Insert does not complete in full,
Insert returns a WriteError and neither the index nor the write cursor is
changed: the pages map is exactly as before and lastOffset is not advanced. -/
theorem insert_write_failure (db : DB) (file k v : List Nat) (w : Nat)
    (hopen : db.f = Handle.openFile file) (hw : w < (encodePage k v).length) :
    (Insert db k v w).2 = Except.error DBError.writeFailed ∧
    (Insert db k v w).1.pages = db.pages ∧
    (Insert db k v w).1.lastOffset = db.lastOffset := by
  rw [Insert_fail k v hopen (by omega)]
  exact ⟨rfl, rfl, rfl⟩

theorem insert_write_failure_witness :
    (Insert (Open New []) [5] [6] 3).2 = Except.error DBError.writeFailed ∧
    (Insert (Open New []) [5] [6] 3).1.pages = (Open New []).pages ∧
    (Insert (Open New []) [5] [6] 3).1.lastOffset = (Open New []).lastOffset :=
  insert_write_failure (Open New []) [] [5] [6] 3 (by decide) (by decide)

/-- C6: replay stops, without surfacing any error from Open (the embedded
Open is total and has no error outcome for data-shape problems), at the first
decode step in which one of the four reads cannot be satisfied in full; after
replay the write cursor equals the end offset of the last fully-parsed
record, and the truncated trailing bytes neither advance the cursor nor
produce an index entry. -/
theorem replay_stops_at_truncated_record (ops : List (List Nat × List Nat))
    (tail : List Nat)
    (hlen : ∀ op ∈ ops, op.1.length < 2 ^ 64 ∧ op.2.length < 2 ^ 64)
    (htrunc : decodeRecord (encodeAll ops ++ tail) (encodeAll ops).length = none) :
    Open New (encodeAll ops ++ tail)
      = { pages := replayFold [] 0 ops,
          f := Handle.openFile (encodeAll ops ++ tail),
          lastOffset := (encodeAll ops).length } :=
  Open_encodeAll ops tail hlen htrunc

theorem replay_stops_at_truncated_record_witness :
    decodeRecord (encodeAll [([1], [2])] ++ [9, 9, 9]) (encodeAll [([1], [2])]).length
      = none ∧
    Open New (encodeAll [([1], [2])] ++ [9, 9, 9])
      = { pages := replayFold [] 0 [([1], [2])],
          f := Handle.openFile (encodeAll [([1], [2])] ++ [9, 9, 9]),
          lastOffset := (encodeAll [([1], [2])]).length } :=
  ⟨by decide,
    replay_stops_at_truncated_record [([1], [2])] [9, 9, 9] (by decide) (by decide)⟩

/-- C7 counterexample: the claim says Insert and Get on an engine after Close
return a NotOpenError; in the code Close leaves db.f non-nil, so on a closed
engine Insert reaches WriteAt and returns the write error, and Get — whose
index lookup precedes Seek — returns the key-not-found error for the absent
key here (and would return the seek error for a present key); neither
operation returns the not-opened error. -/
theorem insert_get_after_close_counterexample :
    (Insert (Close (Open New [])).1 [1] [2] 18).2 = Except.error DBError.writeFailed ∧
    ¬ (Insert (Close (Open New [])).1 [1] [2] 18).2 = Except.error DBError.notOpen ∧
    Get (Close (Open New [])).1 [1] = Except.error DBError.keyNotFound ∧
    ¬ Get (Close (Open New [])).1 [1] = Except.error DBError.notOpen ∧
    Get (Close (Insert (Open New []) [3] [4] 18).1).1 [3]
      = Except.error DBError.seekFailed ∧
    ¬ Get (Close (Insert (Open New []) [3] [4] 18).1).1 [3]
      = Except.error DBError.notOpen := by
  decide

/-- C7 (amended): Insert and Get on an engine that was never opened return a
NotOpenError and never crash; on an engine after Close they still return
errors rather than crashing, but never NotOpenError: Insert returns the write
error from the closed handle, and Get — doing the index lookup before Seek —
returns the key-not-found error for a key absent from the index and the seek
error from the closed handle for a present key. -/
theorem insert_get_unopened_and_closed (db₁ db₂ : DB) (k v ka kp : List Nat) (w : Nat)
    (h₁ : db₁.f = Handle.noFile) (h₂ : db₂.f = Handle.closedFile)
    (ha : mapLookup db₂.pages ka = none)
    (hp : (mapLookup db₂.pages kp).isSome = true) :
    (Insert db₁ k v w).2 = Except.error DBError.notOpen ∧
    Get db₁ k = Except.error DBError.notOpen ∧
    (Insert db₂ k v w).2 = Except.error DBError.writeFailed ∧
    Get db₂ ka = Except.error DBError.keyNotFound ∧
    Get db₂ kp = Except.error DBError.seekFailed := by
  refine ⟨?_, ?_, ?_, ?_, ?_⟩
  · simp [Insert, h₁]
  · simp [Get, h₁]
  · simp [Insert, h₂]
  · simp [Get, h₂, ha]
  · cases hl : mapLookup db₂.pages kp with
    | none => rw [hl] at hp; cases hp
    | some page => simp [Get, h₂, hl]

theorem insert_get_unopened_and_closed_witness :
    (Insert New [1] [2] 18).2 = Except.error DBError.notOpen ∧
    Get New [1] = Except.error DBError.notOpen ∧
    (Insert (Close (Insert (Open New []) [3] [4] 18).1).1 [1] [2] 18).2
      = Except.error DBError.writeFailed ∧
    Get (Close (Insert (Open New []) [3] [4] 18).1).1 [1]
      = Except.error DBError.keyNotFound ∧
    Get (Close (Insert (Open New []) [3] [4] 18).1).1 [3]
      = Except.error DBError.seekFailed :=
  insert_get_unopened_and_closed New (Close (Insert (Open New []) [3] [4] 18).1).1
    [1] [2] [1] [3] 18 (by decide) (by decide) (by decide) (by decide)

/-- C8 counterexample: the claim says Close on an already-closed engine is a
no-op returning success; in the code Close does not reset db.f to nil, so the
second Close calls os.File.Close on an already-closed handle and returns its
error (os.ErrClosed), not success. -/
theorem close_twice_counterexample :
    (Close (Close (Open New [])).1).2 = Except.error DBError.fileAlreadyClosed ∧
    ¬ (Close (Close (Open New [])).1).2 = Except.ok () := by
  decide

/-- C8 (amended): Close on an engine that was never opened (db.f nil) is a
no-op returning success; Close after a successful Close returns the error of
the underlying already-closed file handle, not success. -/
theorem close_idempotency (db₁ db₂ : DB)
    (h₁ : db₁.f = Handle.noFile) (h₂ : db₂.f = Handle.closedFile) :
    Close db₁ = (db₁, Except.ok ()) ∧
    (Close db₂).2 = Except.error DBError.fileAlreadyClosed := by
  constructor
  · simp [Close, h₁]
  · simp [Close, h₂]

theorem close_idempotency_witness :
    Close New = (New, Except.ok ()) ∧
    (Close (Close (Open New [])).1).2 = Except.error DBError.fileAlreadyClosed :=
  close_idempotency New (Close (Open New [])).1 (by decide) (by decide)

/-- C9: in every state reachable by Open and successful Inserts (Get, Keys
and Exists do not mutate state), every index entry decodes from the file at
its recorded offset back to exactly its own key and its own Page — in
particular the record's key equals the index key and its value length equals
the entry's valueSize — with the record occupying
[offset, offset + size). -/
theorem index_entries_decode (db : DB) (hdb : Reachable db) (file : List Nat)
    (hopen : db.f = Handle.openFile file) :
    ∀ e ∈ db.pages, decodeRecord file e.2.offset = some (e.1, e.2, e.2.offset + e.2.size) :=
  fun e he => ((reachable_inv hdb file hopen).2 e he).1

theorem index_entries_decode_witness :
    decodeRecord (writeAt [] 0 (encodePage [1] [2])) 0
      = some ([1], { keySize := 1, valueSize := 1, offset := 0, size := 18 }, 18) := by
  have h := index_entries_decode (Insert (Open New []) [1] [2] 18).1
    (Reachable.insert_reach (Open New []) [1] [2] 18 (by decide) (by decide)
      (Reachable.open_reach []) (by decide))
    (writeAt [] 0 (encodePage [1] [2])) (by decide)
  have hm := h ([1], { keySize := 1, valueSize := 1, offset := 0, size := 18 }) (by decide)
  simpa using hm

/-- C10: a successful Insert(k, v) on a reachable state modifies only the
index entry for k and the write cursor: for every other key kp already in the
index, the index entry for kp is unchanged and a subsequent Get(kp) returns
exactly what it returned before the insert. -/
theorem insert_frame (db : DB) (k v kp : List Nat) (w : Nat)
    (hdb : Reachable db) (hne : kp ≠ k)
    (hmem : (mapLookup db.pages kp).isSome = true)
    (hok : (Insert db k v w).2 = Except.ok ()) :
    mapLookup (Insert db k v w).1.pages kp = mapLookup db.pages kp ∧
    Get (Insert db k v w).1 kp = Get db kp := by
  constructor
  · obtain ⟨file, hf, hw⟩ := Insert_ok_inv hok
    rw [Insert_ok k v hf hw]
    exact mapLookup_mapInsert_ne db.pages _ hne
  · exact Get_Insert_frame (reachable_inv hdb) hne hok

theorem insert_frame_witness :
    mapLookup (Insert (Insert (Open New []) [3] [4] 18).1 [1] [2] 18).1.pages [3]
      = mapLookup (Insert (Open New []) [3] [4] 18).1.pages [3] ∧
    Get (Insert (Insert (Open New []) [3] [4] 18).1 [1] [2] 18).1 [3]
      = Get (Insert (Open New []) [3] [4] 18).1 [3] :=
  insert_frame (Insert (Open New []) [3] [4] 18).1 [1] [2] [3] 18
    (Reachable.insert_reach (Open New []) [3] [4] 18 (by decide) (by decide)
      (Reachable.open_reach []) (by decide))
    (by decide) (by decide) (by decide)

end Voila
